import Mathlib

/-!
Verification of the fpe-c format-preserving-encryption library.

The definitions below are a shallow embedding of the C sources:
  src/src/ff1.c, src/src/ff3.c, src/src/ff3-1.c, src/src/fpe.c, src/src/utils.c.

Bytes are modelled as natural numbers kept below 256 by the same masks the C
code applies (casts to unsigned char become `% 256`, `& 0xFF` likewise).
Digit strings (`unsigned int *` buffers of base-`radix` numerals) are lists of
naturals.  The block cipher (OpenSSL EVP, AES/SM4 ECB on 16-byte blocks) is
outside the repository and is modelled as an arbitrary function
`E : List Nat → List Nat`; the spec declares its correctness assumed, and all
claims below hold for every such function.  Fallible C functions returning
`0` / `-1` become `Option`-valued functions (`none` = error return `-1`).
-/

namespace FpeC

/-- ceildiv from ff1.c / ff3.c / ff3-1.c: ceiling(a/b) as `(a + b - 1) / b`. -/
def ceildiv (a b : Nat) : Nat := (a + b - 1) / b

/-- Fuel-driven computation of `ceil(log2 n)`; `clog2F f n` halves `n` (rounding
up) until it reaches 1, counting steps.  Fuel `n` always suffices. -/
def clog2F : Nat → Nat → Nat
  | 0, _ => 0
  | f + 1, n => if n ≤ 1 then 0 else clog2F f ((n + 1) / 2) + 1

/-- Exact value of `ceil(log2 n)`.  The C sources compute it as
`ceil(len * log2((double)radix))` with double-precision floats; this embedding
uses the exact mathematical value `ceil(log2 (radix ^ len))`. -/
def clog2 (n : Nat) : Nat := clog2F n n

/-- Byte count `b = ceil(ceil(v * log2 radix) / 8)` derived in ff1.c. -/
def bLen (radix v : Nat) : Nat := ceildiv (clog2 (radix ^ v)) 8

/-- Big-endian value of a digit list in the given base (Horner). -/
def beValB (base : Nat) (l : List Nat) : Nat :=
  l.foldl (fun acc d => acc * base + d) 0

/-- Inner loop of num_to_bytes (ff1.c lines 36-44): multiply the big-endian
byte buffer by `radix`, add `c`, propagating the carry from the last byte to
the first; returns the new buffer and the dropped final carry.  The byte store
`out[j] = (unsigned char)(tmp & 0xFF)` is the `% 256`. -/
def mulAddByte (radix : Nat) : List Nat → Nat → List Nat × Nat
  | [], c => ([], c)
  | b :: rest, c =>
    let r := mulAddByte radix rest c
    ((b * radix + r.2) % 256 :: r.1, (b * radix + r.2) / 256)

/-- num_to_bytes (ff1.c lines 30-45): convert a numeral string (FF1 natural
order, most significant digit first) to a big-endian byte buffer of fixed
width `out_len`. -/
def num_to_bytes (x : List Nat) (radix out_len : Nat) : List Nat :=
  x.foldl (fun out d => (mulAddByte radix out d).1) (List.replicate out_len 0)

/-- num_to_bytes_rev (ff3.c lines 31-44, ff3-1.c lines 31-44): same inner body
but the outer loop walks the digits from last to first. -/
def num_to_bytes_rev (x : List Nat) (radix out_len : Nat) : List Nat :=
  x.reverse.foldl (fun out d => (mulAddByte radix out d).1) (List.replicate out_len 0)

/-- Inner loop of bytes_to_num (ff1.c lines 59-67): divide the big-endian byte
buffer by `radix` in place, from the first byte to the last, returning the new
buffer and the remainder.  The store `temp[j] = (unsigned char)(tmp / radix)`
is the `% 256`. -/
def divModByte (radix : Nat) : Nat → List Nat → List Nat × Nat
  | r, [] => ([], r)
  | r, b :: rest =>
    let q := divModByte radix ((r * 256 + b) % radix) rest
    ((r * 256 + b) / radix % 256 :: q.1, q.2)

/-- Outer loop of bytes_to_num: the first remainder goes to the last digit
position `x[len-1]`, the next to `x[len-2]`, and so on. -/
def bytes_to_num_go (radix : Nat) : Nat → List Nat → List Nat
  | 0, _ => []
  | n + 1, temp =>
    let q := divModByte radix 0 temp
    bytes_to_num_go radix n q.1 ++ [q.2]

/-- bytes_to_num (ff1.c lines 50-69): big-endian byte buffer to numeral string
of length `len` (FF1 natural order). -/
def bytes_to_num (bytes : List Nat) (len radix : Nat) : List Nat :=
  bytes_to_num_go radix len bytes

/-- Outer loop of bytes_to_num_rev: the first remainder goes to digit position
`x[0]`, the next to `x[1]`, and so on. -/
def bytes_to_num_rev_go (radix : Nat) : Nat → List Nat → List Nat
  | 0, _ => []
  | n + 1, temp =>
    let q := divModByte radix 0 temp
    q.2 :: bytes_to_num_rev_go radix n q.1

/-- bytes_to_num_rev (ff3.c lines 51-68, ff3-1.c lines 51-68). -/
def bytes_to_num_rev (bytes : List Nat) (len radix : Nat) : List Nat :=
  bytes_to_num_rev_go radix len bytes

/-- FF1 digit addition (ff1.c lines 292-297): `c = (NUM(A) + y) mod radix^m`
computed digit by digit from index `m-1` down to 0 with a carry; the final
carry is dropped.  Returns the new digits and that final carry. -/
def addDigits (radix : Nat) : List Nat → List Nat → List Nat × Nat
  | a :: as, y :: ys =>
    let r := addDigits radix as ys
    ((a + y + r.2) % radix :: r.1, (a + y + r.2) / radix)
  | as, _ => (as, 0)

/-- FF1 digit subtraction (ff1.c lines 444-454): borrow-propagating
subtraction from index `m-1` down to 0; the final borrow is dropped. -/
def subDigits (radix : Nat) : List Nat → List Nat → List Nat × Nat
  | a :: as, y :: ys =>
    let r := subDigits radix as ys
    if a < y + r.2 then ((a + radix - y - r.2) :: r.1, 1)
    else ((a - y - r.2) :: r.1, 0)
  | as, _ => (as, 0)

/-- FF3-family digit addition (ff3.c lines 223-228, ff3-1.c lines 233-238):
position 0 is the least significant digit, carry runs from index 0 upward. -/
def addLE (radix : Nat) : Nat → List Nat → List Nat → List Nat
  | c, a :: as, y :: ys =>
    (a + y + c) % radix :: addLE radix ((a + y + c) / radix) as ys
  | _, as, _ => as

/-- FF3-family digit subtraction (ff3.c lines 315-325, ff3-1.c 330-340). -/
def subLE (radix : Nat) : Nat → List Nat → List Nat → List Nat
  | bw, a :: as, y :: ys =>
    if a < y + bw then (a + radix - y - bw) :: subLE radix 1 as ys
    else (a - y - bw) :: subLE radix 0 as ys
  | _, as, _ => as

/-- Byte-wise XOR of two buffers (ff1.c lines 98-100 and 126-128). -/
def xorBytes (a R : List Nat) : List Nat := List.zipWith (fun x y => x ^^^ y) a R

/-- Successive 16-byte blocks `Q_0, …, Q_{n-1}` of a buffer. -/
def chunkList : Nat → List Nat → List (List Nat)
  | 0, _ => []
  | n + 1, l => l.take 16 :: chunkList n (l.drop 16)

/-- Counter block used by the FF1 PRF extension (ff1.c lines 116-123): twelve
zero bytes followed by `j` as a 32-bit big-endian integer. -/
def ctrBlock (j : Nat) : List Nat :=
  List.replicate 12 0 ++ [j / 2 ^ 24 % 256, j / 2 ^ 16 % 256, j / 2 ^ 8 % 256, j % 256]

/-- CBC-MAC chaining over the blocks of Q (ff1.c lines 94-105). -/
def cbcmac (E : List Nat → List Nat) (R0 : List Nat) (qs : List (List Nat)) : List Nat :=
  qs.foldl (fun R q => E (xorBytes q R)) R0

/-- ff1_prf (ff1.c lines 79-143): `R = E(P)`, CBC-MAC over the 16-byte blocks
of `Q`, then counter-mode extension to `d` bytes. -/
def ff1_prf (E : List Nat → List Nat) (P Q : List Nat) (d : Nat) : List Nat :=
  let R := cbcmac E (E P) (chunkList (Q.length / 16) Q)
  if d ≤ 16 then R.take d
  else (R ++ ((List.range (ceildiv d 16 - 1)).map
      (fun k => E (xorBytes (ctrBlock (k + 1)) R))).flatten).take d

/-- Fixed 16-byte FF1 prefix P (ff1.c lines 178-194 and 376-392). -/
def ff1_P (radix u len tweak_len : Nat) : List Nat :=
  [1, 2, 1,
   radix / 2 ^ 16 % 256, radix / 2 ^ 8 % 256, radix % 256,
   10, u % 256,
   len / 2 ^ 24 % 256, len / 2 ^ 16 % 256, len / 2 ^ 8 % 256, len % 256,
   tweak_len / 2 ^ 24 % 256, tweak_len / 2 ^ 16 % 256, tweak_len / 2 ^ 8 % 256,
   tweak_len % 256]

/-- Zero padding length `(-t - b - 1) mod 16` (ff1.c lines 232-233).  The C
expression `((pad_amount % 16) + 16) % 16` on the negative `pad_amount`
equals `(16 - (t + b + 1) % 16) % 16`. -/
def ff1_pad (tweak_len b : Nat) : Nat := (16 - (tweak_len + b + 1) % 16) % 16

/-- Round buffer `Q = T ∥ 0^pad ∥ byte(i) ∥ NUMradix(B)` (ff1.c lines 220-245).
The C code assembles this in a 256-byte stack array `Q[256]`. -/
def ff1_Q (tweak : List Nat) (b i : Nat) (Bbytes : List Nat) : List Nat :=
  tweak ++ List.replicate (ff1_pad tweak.length b) 0 ++ [i % 256] ++ Bbytes

/-- Data added to the active FF1 half in round `i` (ff1.c lines 257-280):
`y = bytes_to_num(PRF(P ∥ Q), d, m)` where `m` alternates between `u` (even
rounds) and `v` (odd rounds). -/
def ff1_y (E : List Nat → List Nat) (radix : Nat) (tweak P : List Nat)
    (b d u v : Nat) (i : Nat) (pB : List Nat) : List Nat :=
  let m := if i % 2 = 1 then v else u
  let S := ff1_prf E P (ff1_Q tweak b i (num_to_bytes pB radix b)) d
  bytes_to_num S m radix

/-- One forward Feistel step shared by all three modes: update the active half
from the other half, then swap the pointer roles (encrypt loops). -/
def frEnc (upd : List Nat → List Nat → List Nat) (yf : Nat → List Nat → List Nat)
    (st : List Nat × List Nat) (i : Nat) : List Nat × List Nat :=
  (st.2, upd st.1 (yf i st.2))

/-- One inverse Feistel step: swap first, then subtract (decrypt loops). -/
def frDec (dsub : List Nat → List Nat → List Nat) (yf : Nat → List Nat → List Nat)
    (st : List Nat × List Nat) (i : Nat) : List Nat × List Nat :=
  (dsub st.2 (yf i st.1), st.1)

/-- Digit update used by FF1 (result of addDigits, final carry dropped). -/
def ff1add (radix : Nat) (a y : List Nat) : List Nat := (addDigits radix a y).1

/-- Digit update used by FF1 decryption. -/
def ff1sub (radix : Nat) (a y : List Nat) : List Nat := (subDigits radix a y).1

/-- ff1_encrypt (ff1.c lines 148-343).  `E` is the block cipher configured in
the context; errors (`len < 2`, `len > 256`) return `none`. -/
def ff1_encrypt (E : List Nat → List Nat) (radix : Nat) (tweak x : List Nat) :
    Option (List Nat) :=
  if x.length < 2 ∨ 256 < x.length then none else
  let u := x.length / 2
  let v := x.length - u
  let b := bLen radix v
  let d := 4 * ceildiv b 4 + 4
  let P := ff1_P radix u x.length tweak.length
  let st := (List.range 10).foldl
    (frEnc (ff1add radix) (ff1_y E radix tweak P b d u v)) (x.take u, x.drop u)
  some (st.1 ++ st.2)

/-- ff1_decrypt (ff1.c lines 348-462): rounds `9..0`, swap before the round
body, subtraction instead of addition. -/
def ff1_decrypt (E : List Nat → List Nat) (radix : Nat) (tweak x : List Nat) :
    Option (List Nat) :=
  if x.length < 2 ∨ 256 < x.length then none else
  let u := x.length / 2
  let v := x.length - u
  let b := bLen radix v
  let d := 4 * ceildiv b 4 + 4
  let P := ff1_P radix u x.length tweak.length
  let st := ((List.range 10).reverse).foldl
    (frDec (ff1sub radix) (ff1_y E radix tweak P b d u v)) (x.take u, x.drop u)
  some (st.1 ++ st.2)

/-- fpe_reverse_bytes (utils.c lines 178-185). -/
def fpe_reverse_bytes (l : List Nat) : List Nat := l.reverse

/-- Round block-cipher call shared by FF3 and FF3-1 (ff3.c ff3_round_encrypt
lines 114-153; ff3-1.c ff3_1_round_encrypt lines 113-157 is verbatim the same
code).  Builds `T ∥ 0… ∥ NUM_rev(B)` with the round index XORed into byte 3,
byte-reverses, encrypts, byte-reverses again. -/
def ff3_round_W (E : List Nat → List Nat) (radix : Nat) (T : List Nat)
    (round : Nat) (B : List Nat) : List Nat :=
  let b := min (ceildiv (clog2 (radix ^ B.length)) 8) 12
  let pt := [T.getD 0 0, T.getD 1 0, T.getD 2 0, T.getD 3 0 ^^^ round % 256]
      ++ List.replicate (12 - b) 0 ++ num_to_bytes_rev B radix b
  fpe_reverse_bytes (E (fpe_reverse_bytes pt))

/-- Digits added in FF3 / FF3-1 round `i`: tweak half `Tr` on even rounds and
`Tl` on odd rounds, active length `u` on even rounds and `v` on odd rounds. -/
def ff3_y (E : List Nat → List Nat) (radix : Nat) (Tl Tr : List Nat)
    (u v : Nat) (i : Nat) (pB : List Nat) : List Nat :=
  let T := if i % 2 = 1 then Tl else Tr
  let m := if i % 2 = 1 then v else u
  bytes_to_num_rev (ff3_round_W E radix T i pB) m radix

/-- FF3 tweak halves (ff3.c lines 182-192): `Tl = T[0..4]`; `Tr = T[4..8]` for
an 8-byte tweak, `T[4..7] ∥ 0` for a 7-byte tweak, zero otherwise. -/
def ff3_tweakHalves (tweak : List Nat) : List Nat × List Nat :=
  let Tl := if 4 ≤ tweak.length then tweak.take 4 else [0, 0, 0, 0]
  let Tr := if 8 ≤ tweak.length then (tweak.drop 4).take 4
    else if tweak.length = 7 then (tweak.drop 4).take 3 ++ [0]
    else [0, 0, 0, 0]
  (Tl, Tr)

/-- ff3_encrypt (ff3.c lines 158-241). -/
def ff3_encrypt (E : List Nat → List Nat) (radix : Nat) (tweak x : List Nat) :
    Option (List Nat) :=
  if x.length < 2 ∨ 256 < x.length then none
  else if tweak.length ≠ 8 ∧ tweak.length ≠ 7 ∧ tweak.length ≠ 0 then none
  else
    let u := (x.length + 1) / 2
    let halves := ff3_tweakHalves tweak
    let st := (List.range 8).foldl
      (frEnc (addLE radix 0) (ff3_y E radix halves.1 halves.2 u (x.length - u)))
      (x.take u, x.drop u)
    some (st.1 ++ st.2)

/-- ff3_decrypt (ff3.c lines 246-333). -/
def ff3_decrypt (E : List Nat → List Nat) (radix : Nat) (tweak x : List Nat) :
    Option (List Nat) :=
  if x.length < 2 ∨ 256 < x.length then none
  else if tweak.length ≠ 8 ∧ tweak.length ≠ 7 ∧ tweak.length ≠ 0 then none
  else
    let u := (x.length + 1) / 2
    let halves := ff3_tweakHalves tweak
    let st := ((List.range 8).reverse).foldl
      (frDec (subLE radix 0) (ff3_y E radix halves.1 halves.2 u (x.length - u)))
      (x.take u, x.drop u)
    some (st.1 ++ st.2)

/-- FF3-1 tweak halves (ff3-1.c lines 187-202): for a tweak of at least 7
bytes, `Tl = T[0], T[1], T[2], T[3] & 0xF0` and
`Tr = T[3] & 0x0F, T[4], T[5], T[6]` (note: the low nibble of `T[3]` is NOT
shifted into the high nibble position); otherwise both halves are zero. -/
def ff3_1_tweakHalves (tweak : List Nat) : List Nat × List Nat :=
  if 7 ≤ tweak.length then
    ([tweak.getD 0 0, tweak.getD 1 0, tweak.getD 2 0, tweak.getD 3 0 &&& 0xF0],
     [tweak.getD 3 0 &&& 0x0F, tweak.getD 4 0, tweak.getD 5 0, tweak.getD 6 0])
  else ([0, 0, 0, 0], [0, 0, 0, 0])

/-- ff3_1_encrypt (ff3-1.c lines 162-251).  Identical Feistel skeleton to FF3
with the FF3-1 tweak-half derivation. -/
def ff3_1_encrypt (E : List Nat → List Nat) (radix : Nat) (tweak x : List Nat) :
    Option (List Nat) :=
  if x.length < 2 ∨ 256 < x.length then none
  else if tweak.length ≠ 7 ∧ tweak.length ≠ 8 ∧ tweak.length ≠ 0 then none
  else
    let u := (x.length + 1) / 2
    let halves := ff3_1_tweakHalves tweak
    let st := (List.range 8).foldl
      (frEnc (addLE radix 0) (ff3_y E radix halves.1 halves.2 u (x.length - u)))
      (x.take u, x.drop u)
    some (st.1 ++ st.2)

/-- ff3_1_decrypt (ff3-1.c lines 256-348). -/
def ff3_1_decrypt (E : List Nat → List Nat) (radix : Nat) (tweak x : List Nat) :
    Option (List Nat) :=
  if x.length < 2 ∨ 256 < x.length then none
  else if tweak.length ≠ 7 ∧ tweak.length ≠ 8 ∧ tweak.length ≠ 0 then none
  else
    let u := (x.length + 1) / 2
    let halves := ff3_1_tweakHalves tweak
    let st := ((List.range 8).reverse).foldl
      (frDec (subLE radix 0) (ff3_y E radix halves.1 halves.2 u (x.length - u)))
      (x.take u, x.drop u)
    some (st.1 ++ st.2)

/-- fpe_validate_radix (utils.c lines 84-87).  Error returns are `-1 : Int`. -/
def fpe_validate_radix (radix : Nat) : Int :=
  if radix < 2 ∨ 65536 < radix then -1 else 0

/-- fpe_validate_tweak (utils.c lines 89-112).  The C mode is a plain enum
int: 0 = FF1, 1 = FF3, 2 = FF3-1; every other value is unsupported. -/
def fpe_validate_tweak (mode : Nat) (tweak_len : Nat) : Int :=
  if mode = 0 then 0
  else if mode = 1 then
    (if tweak_len ≠ 8 ∧ tweak_len ≠ 7 ∧ tweak_len ≠ 0 then -1 else 0)
  else if mode = 2 then
    (if tweak_len ≠ 7 ∧ tweak_len ≠ 8 ∧ tweak_len ≠ 0 then -1 else 0)
  else -1

/-- Context state relevant to the claims (fpe_internal.h struct fpe_ctx_st):
the key storage is the fixed 32-byte array `unsigned char key[32]`. -/
structure FPE_CTX where
  mode : Nat
  algo : Nat
  radix : Nat
  key_bits : Nat
  key_len : Nat
  key : List Nat
  deriving Repr, DecidableEq

/-- FPE_CTX_init (fpe.c lines 56-159).  Validates radix and (algo, key bits),
stores the configuration and copies `bits/8` key bytes over the 32-byte key
array with `memcpy` — the remaining bytes of the previous key are untouched.
The mode-specific branches only initialize the external EVP cipher (assumed
to succeed; SM4 support compiled in) and set `minlen`; a mode outside
{0, 1, 2} matches no branch and the function still returns 0. -/
def FPE_CTX_init (ctx : FPE_CTX) (mode algo : Nat) (key : List Nat)
    (bits radix : Nat) : Option FPE_CTX :=
  if fpe_validate_radix radix ≠ 0 then none
  else if ¬ (algo = 0 ∧ (bits = 128 ∨ bits = 192 ∨ bits = 256) ∨
             algo = 1 ∧ bits = 128) then none
  else some { mode := mode, algo := algo, radix := radix, key_bits := bits,
              key_len := bits / 8,
              key := key.take (bits / 8) ++ ctx.key.drop (bits / 8) }

/-- FPE_encrypt (fpe.c lines 165-184): validate the tweak for the context
mode, then dispatch to the engine.  No digit validation is performed. -/
def FPE_encrypt (E : List Nat → List Nat) (ctx : FPE_CTX) (x tweak : List Nat) :
    Option (List Nat) :=
  if fpe_validate_tweak ctx.mode tweak.length ≠ 0 then none
  else if ctx.mode = 0 then ff1_encrypt E ctx.radix tweak x
  else if ctx.mode = 1 then ff3_encrypt E ctx.radix tweak x
  else if ctx.mode = 2 then ff3_1_encrypt E ctx.radix tweak x
  else none

/-- FPE_decrypt (fpe.c lines 186-205). -/
def FPE_decrypt (E : List Nat → List Nat) (ctx : FPE_CTX) (x tweak : List Nat) :
    Option (List Nat) :=
  if fpe_validate_tweak ctx.mode tweak.length ≠ 0 then none
  else if ctx.mode = 0 then ff1_decrypt E ctx.radix tweak x
  else if ctx.mode = 1 then ff3_decrypt E ctx.radix tweak x
  else if ctx.mode = 2 then ff3_1_decrypt E ctx.radix tweak x
  else none

/-- Concrete all-zero block cipher used to instantiate witnesses. -/
def cipherZero : List Nat → List Nat := fun _ => List.replicate 16 0

/-- Concrete non-degenerate block cipher used to instantiate witnesses. -/
def cipherMix : List Nat → List Nat := fun l =>
  (List.range 16).map (fun i => (l.headD 0 * 31 + l.getD i 0 * 7 + i * 13 + 5) % 256)

/-- Big-endian digits of `V` in base `r`, fixed width `n` (value taken mod
`r ^ n`).  Proof-side normal form for the two bytes_to_num loops. -/
def toDigitsBE (r : Nat) : Nat → Nat → List Nat
  | 0, _ => []
  | n + 1, V => toDigitsBE r n (V / r) ++ [V % r]

section Arith

lemma div_of_lt_two_mul {r s : Nat} (h0 : 0 < r) (h1 : r ≤ s) (h2 : s < 2 * r) :
    s / r = 1 := by
  rw [Nat.div_eq_sub_div h0 h1, Nat.div_eq_of_lt (by omega)]

lemma mod_of_lt_two_mul {r s : Nat} (h1 : r ≤ s) (h2 : s < 2 * r) :
    s % r = s - r := by
  rw [Nat.mod_eq_sub_mod h1, Nat.mod_eq_of_lt (by omega)]

end Arith

section BeVal

lemma beValB_nil (B : Nat) : beValB B [] = 0 := rfl

lemma beValB_from (B : Nat) (acc : Nat) (l : List Nat) :
    l.foldl (fun acc d => acc * B + d) acc = acc * B ^ l.length + beValB B l := by
  induction l generalizing acc with
  | nil => simp [beValB]
  | cons a t ih =>
    have h0 : beValB B (a :: t) = List.foldl (fun acc d => acc * B + d) a t := by
      simp [beValB]
    rw [List.foldl_cons, h0, ih (acc * B + a), ih a, List.length_cons]
    ring

lemma beValB_cons (B a : Nat) (l : List Nat) :
    beValB B (a :: l) = a * B ^ l.length + beValB B l := by
  simp only [beValB, List.foldl_cons, Nat.zero_mul, Nat.zero_add]
  exact beValB_from B a l

lemma beValB_append_singleton (B d : Nat) (l : List Nat) :
    beValB B (l ++ [d]) = beValB B l * B + d := by
  simp [beValB, List.foldl_append]

lemma beValB_replicate_zero (B n : Nat) : beValB B (List.replicate n 0) = 0 := by
  induction n with
  | zero => rfl
  | succ k ih => rw [List.replicate_succ, beValB_cons, ih]; simp

lemma beValB_lt (B : Nat) (l : List Nat) (hB : 0 < B) (h : ∀ d ∈ l, d < B) :
    beValB B l < B ^ l.length := by
  induction l with
  | nil => simpa [beValB] using hB
  | cons a t ih =>
    rw [beValB_cons, List.length_cons, pow_succ, Nat.mul_comm (B ^ t.length) B]
    have ha : a < B := h a (List.mem_cons_self a t)
    have ht : beValB B t < B ^ t.length := ih (fun d hd => h d (List.mem_cons_of_mem a hd))
    calc a * B ^ t.length + beValB B t
        < a * B ^ t.length + B ^ t.length := Nat.add_lt_add_left ht _
      _ = (a + 1) * B ^ t.length := by ring
      _ ≤ B * B ^ t.length := Nat.mul_le_mul_right _ (by omega)

end BeVal

section ToDigits

lemma toDigitsBE_length (r n V : Nat) : (toDigitsBE r n V).length = n := by
  induction n generalizing V with
  | zero => rfl
  | succ k ih => simp [toDigitsBE, ih]

lemma toDigitsBE_lt (r n V : Nat) (hr : 0 < r) :
    ∀ d ∈ toDigitsBE r n V, d < r := by
  induction n generalizing V with
  | zero => intro d hd; simp [toDigitsBE] at hd
  | succ k ih =>
    intro d hd
    simp only [toDigitsBE, List.mem_append, List.mem_singleton] at hd
    rcases hd with hd | hd
    · exact ih (V / r) d hd
    · subst hd; exact Nat.mod_lt _ hr

lemma beValB_toDigitsBE (r n V : Nat) (hr : 0 < r) :
    beValB r (toDigitsBE r n V) = V % r ^ n := by
  induction n generalizing V with
  | zero => simp [toDigitsBE, beValB, Nat.mod_one]
  | succ k ih =>
    rw [toDigitsBE, beValB_append_singleton, ih (V / r)]
    rw [pow_succ, Nat.mul_comm (r ^ k) r, Nat.mod_mul]
    ring

lemma toDigitsBE_beValB (r : Nat) (hr : 0 < r) (x : List Nat)
    (hd : ∀ d ∈ x, d < r) : toDigitsBE r x.length (beValB r x) = x := by
  induction x using List.reverseRecOn with
  | nil => rfl
  | append_singleton xs a ih =>
    have ha : a < r := hd a (by simp)
    have hxs : ∀ d ∈ xs, d < r := fun d h => hd d (by simp [h])
    rw [beValB_append_singleton, List.length_append, List.length_singleton,
      toDigitsBE]
    have hdiv : (beValB r xs * r + a) / r = beValB r xs := by
      rw [Nat.add_comm, Nat.add_mul_div_right _ _ hr, Nat.div_eq_of_lt ha]
      omega
    have hmod : (beValB r xs * r + a) % r = a := by
      rw [Nat.add_comm, Nat.add_mul_mod_self_right, Nat.mod_eq_of_lt ha]
    rw [hdiv, hmod, ih hxs]

end ToDigits

section Codec

lemma mulAddByte_length (R : Nat) (l : List Nat) (c : Nat) :
    (mulAddByte R l c).1.length = l.length := by
  induction l generalizing c with
  | nil => rfl
  | cons b t ih => simp [mulAddByte, ih]

lemma mulAddByte_lt (R : Nat) (l : List Nat) (c : Nat) :
    ∀ d ∈ (mulAddByte R l c).1, d < 256 := by
  induction l generalizing c with
  | nil => intro d hd; simp [mulAddByte] at hd
  | cons b t ih =>
    intro d hd
    simp only [mulAddByte, List.mem_cons] at hd
    rcases hd with hd | hd
    · subst hd; exact Nat.mod_lt _ (by omega)
    · exact ih c d hd

lemma mulAddByte_spec (R : Nat) (l : List Nat) (c : Nat) (hl : ∀ d ∈ l, d < 256) :
    beValB 256 (mulAddByte R l c).1 + (mulAddByte R l c).2 * 256 ^ l.length =
      beValB 256 l * R + c := by
  induction l generalizing c with
  | nil => simp [mulAddByte, beValB]
  | cons b t ih =>
    have hb : b < 256 := hl b (List.mem_cons_self b t)
    have ht : ∀ d ∈ t, d < 256 := fun d hd => hl d (List.mem_cons_of_mem b hd)
    simp only [mulAddByte, beValB_cons, mulAddByte_length, List.length_cons]
    have hrec := ih c ht
    set c2 := (mulAddByte R t c).2 with hc2
    set tmp := b * R + c2 with htmp
    have hdm : tmp % 256 + 256 * (tmp / 256) = tmp := Nat.mod_add_div tmp 256
    calc tmp % 256 * 256 ^ t.length + beValB 256 (mulAddByte R t c).1 +
          tmp / 256 * (256 ^ t.length * 256)
        = (tmp % 256 + 256 * (tmp / 256)) * 256 ^ t.length +
            beValB 256 (mulAddByte R t c).1 := by ring
      _ = tmp * 256 ^ t.length + beValB 256 (mulAddByte R t c).1 := by rw [hdm]
      _ = b * R * 256 ^ t.length + (beValB 256 (mulAddByte R t c).1 +
            c2 * 256 ^ t.length) := by ring
      _ = b * R * 256 ^ t.length + (beValB 256 t * R + c) := by rw [hrec]
      _ = (b * 256 ^ t.length + beValB 256 t) * R + c := by ring

lemma num_to_bytes_fold_length (R : Nat) (x : List Nat) (out : List Nat) :
    (x.foldl (fun o d => (mulAddByte R o d).1) out).length = out.length := by
  induction x generalizing out with
  | nil => rfl
  | cons a t ih => simp [ih, mulAddByte_length]

lemma num_to_bytes_fold_lt (R : Nat) (x : List Nat) (out : List Nat)
    (h : ∀ d ∈ out, d < 256) :
    ∀ d ∈ x.foldl (fun o d => (mulAddByte R o d).1) out, d < 256 := by
  induction x generalizing out with
  | nil => exact h
  | cons a t ih => exact ih _ (mulAddByte_lt R out a)

lemma num_to_bytes_length (x : List Nat) (R w : Nat) :
    (num_to_bytes x R w).length = w := by
  simpa [num_to_bytes] using num_to_bytes_fold_length R x (List.replicate w 0)

lemma num_to_bytes_lt (x : List Nat) (R w : Nat) :
    ∀ d ∈ num_to_bytes x R w, d < 256 := by
  refine num_to_bytes_fold_lt R x _ ?_
  intro d hd
  rw [List.eq_of_mem_replicate hd]
  omega

/-- Value-level shadow of the num_to_bytes fold: `v ↦ v * R + d` mod `M`. -/
lemma valfold_mod_congr (R M : Nat) (x : List Nat) (v w : Nat)
    (h : v % M = w % M) :
    (x.foldl (fun v d => v * R + d) v) % M = (x.foldl (fun v d => v * R + d) w) % M := by
  induction x generalizing v w with
  | nil => exact h
  | cons a t ih =>
    simp only [List.foldl_cons]
    refine ih _ _ ?_
    have := (Nat.ModEq.mul_right R (show v ≡ w [MOD M] from h)).add_right a
    exact this

lemma num_to_bytes_fold_spec (R M : Nat) (x : List Nat) (out : List Nat)
    (hM : M = 256 ^ out.length) (h : ∀ d ∈ out, d < 256) :
    beValB 256 (x.foldl (fun o d => (mulAddByte R o d).1) out) =
      (x.foldl (fun v d => v * R + d) (beValB 256 out)) % M := by
  induction x generalizing out with
  | nil =>
    simp only [List.foldl_nil]
    rw [hM, Nat.mod_eq_of_lt (beValB_lt 256 out (by omega) h)]
  | cons a t ih =>
    simp only [List.foldl_cons]
    have hlen : (mulAddByte R out a).1.length = out.length := mulAddByte_length R out a
    have hstep : beValB 256 (mulAddByte R out a).1 = (beValB 256 out * R + a) % M := by
      have hs := mulAddByte_spec R out a h
      have hlt : beValB 256 (mulAddByte R out a).1 < M := by
        rw [hM, ← hlen]
        exact beValB_lt 256 _ (by omega) (mulAddByte_lt R out a)
      have : beValB 256 out * R + a =
          beValB 256 (mulAddByte R out a).1 + (mulAddByte R out a).2 * M := by
        rw [hM]; omega
      rw [this, Nat.add_mul_mod_self_right, Nat.mod_eq_of_lt hlt]
    rw [ih (mulAddByte R out a).1 (by rw [hlen]; exact hM) (mulAddByte_lt R out a), hstep]
    exact valfold_mod_congr R M t _ _ (by simp [Nat.mod_mod_of_dvd])

lemma num_to_bytes_spec (x : List Nat) (R w : Nat) :
    beValB 256 (num_to_bytes x R w) = beValB R x % 256 ^ w := by
  have h0 : ∀ d ∈ List.replicate w 0, d < 256 := by
    intro d hd; rw [List.eq_of_mem_replicate hd]; omega
  have := num_to_bytes_fold_spec R (256 ^ w) x (List.replicate w 0)
    (by rw [List.length_replicate]) h0
  rw [num_to_bytes, this, beValB_replicate_zero]
  rfl

lemma divModByte_rem_lt (R : Nat) (hR : 0 < R) (c : Nat) (l : List Nat)
    (hc : c < R) : (divModByte R c l).2 < R := by
  induction l generalizing c with
  | nil => exact hc
  | cons b t ih => exact ih _ (Nat.mod_lt _ hR)

lemma divModByte_length (R c : Nat) (l : List Nat) :
    (divModByte R c l).1.length = l.length := by
  induction l generalizing c with
  | nil => rfl
  | cons b t ih => simp [divModByte, ih]

lemma divModByte_byte_lt (R : Nat) (c : Nat) (l : List Nat) :
    ∀ d ∈ (divModByte R c l).1, d < 256 := by
  induction l generalizing c with
  | nil => intro d hd; simp [divModByte] at hd
  | cons b t ih =>
    intro d hd
    simp only [divModByte, List.mem_cons] at hd
    rcases hd with hd | hd
    · subst hd; exact Nat.mod_lt _ (by omega)
    · exact ih _ d hd

lemma divModByte_spec (R : Nat) (hR : 0 < R) (c : Nat) (l : List Nat)
    (hc : c < R) (hl : ∀ d ∈ l, d < 256) :
    beValB 256 (divModByte R c l).1 = (c * 256 ^ l.length + beValB 256 l) / R ∧
      (divModByte R c l).2 = (c * 256 ^ l.length + beValB 256 l) % R := by
  induction l generalizing c with
  | nil =>
    simp only [divModByte, beValB_nil, List.length_nil, pow_zero, Nat.mul_one,
      Nat.add_zero]
    exact ⟨by rw [Nat.div_eq_of_lt hc], by rw [Nat.mod_eq_of_lt hc]⟩
  | cons b t ih =>
    have hb : b < 256 := hl b (List.mem_cons_self b t)
    have ht : ∀ d ∈ t, d < 256 := fun d hd => hl d (List.mem_cons_of_mem b hd)
    set tmp := c * 256 + b with htmp
    have htmplt : tmp / R < 256 := by
      have hlt : tmp < R * 256 := by
        calc tmp = c * 256 + b := rfl
          _ < (c + 1) * 256 := by omega
          _ ≤ R * 256 := Nat.mul_le_mul_right _ (by omega)
      exact Nat.div_lt_of_lt_mul hlt
    have hmodR : tmp % R < R := Nat.mod_lt _ hR
    obtain ⟨ih1, ih2⟩ := ih (tmp % R) hmodR ht
    have hsplit : c * (256 ^ t.length * 256) + (b * 256 ^ t.length + beValB 256 t) =
        R * (tmp / R * 256 ^ t.length) + (tmp % R * 256 ^ t.length + beValB 256 t) := by
      have hdm : R * (tmp / R) + tmp % R = tmp := Nat.div_add_mod tmp R
      calc c * (256 ^ t.length * 256) + (b * 256 ^ t.length + beValB 256 t)
          = (c * 256 + b) * 256 ^ t.length + beValB 256 t := by ring
        _ = (R * (tmp / R) + tmp % R) * 256 ^ t.length + beValB 256 t := by
            rw [hdm]
        _ = R * (tmp / R * 256 ^ t.length) +
              (tmp % R * 256 ^ t.length + beValB 256 t) := by ring
    constructor
    · simp only [divModByte]
      rw [beValB_cons, divModByte_length, Nat.mod_eq_of_lt htmplt, ih1,
        List.length_cons, beValB_cons, pow_succ, hsplit, Nat.mul_add_div hR]
    · simp only [divModByte]
      rw [ih2, List.length_cons, beValB_cons, pow_succ, hsplit, Nat.mul_add_mod]

lemma bytes_to_num_go_toDigits (R : Nat) (hR : 0 < R) (n : Nat) (temp : List Nat)
    (h : ∀ d ∈ temp, d < 256) :
    bytes_to_num_go R n temp = toDigitsBE R n (beValB 256 temp) := by
  induction n generalizing temp with
  | zero => rfl
  | succ k ih =>
    obtain ⟨h1, h2⟩ := divModByte_spec R hR 0 temp hR h
    simp only [Nat.zero_mul, Nat.zero_add] at h1 h2
    simp only [bytes_to_num_go, toDigitsBE]
    rw [ih (divModByte R 0 temp).1 (divModByte_byte_lt R 0 temp), h1, h2]

lemma bytes_to_num_go_lt (R : Nat) (hR : 0 < R) (n : Nat) (temp : List Nat) :
    ∀ d ∈ bytes_to_num_go R n temp, d < R := by
  induction n generalizing temp with
  | zero => intro d hd; simp [bytes_to_num_go] at hd
  | succ k ih =>
    intro d hd
    simp only [bytes_to_num_go, List.mem_append, List.mem_singleton] at hd
    rcases hd with hd | hd
    · exact ih _ d hd
    · subst hd; exact divModByte_rem_lt R hR 0 temp hR

lemma bytes_to_num_go_length (R n : Nat) (temp : List Nat) :
    (bytes_to_num_go R n temp).length = n := by
  induction n generalizing temp with
  | zero => rfl
  | succ k ih => simp [bytes_to_num_go, ih]

lemma bytes_to_num_rev_go_rev (R n : Nat) (temp : List Nat) :
    bytes_to_num_rev_go R n temp = (bytes_to_num_go R n temp).reverse := by
  induction n generalizing temp with
  | zero => rfl
  | succ k ih => simp [bytes_to_num_rev_go, bytes_to_num_go, ih]

lemma bytes_to_num_lt (bytes : List Nat) (n R : Nat) (hR : 0 < R) :
    ∀ d ∈ bytes_to_num bytes n R, d < R :=
  bytes_to_num_go_lt R hR n bytes

lemma bytes_to_num_rev_lt (bytes : List Nat) (n R : Nat) (hR : 0 < R) :
    ∀ d ∈ bytes_to_num_rev bytes n R, d < R := by
  intro d hd
  rw [bytes_to_num_rev, bytes_to_num_rev_go_rev, List.mem_reverse] at hd
  exact bytes_to_num_go_lt R hR n bytes d hd

/-- Round trip of the FF1 natural-order codec: with `radix ^ m ≤ 256 ^ w`
the value is not truncated and decoding recovers every digit. -/
lemma codec_roundtrip_nat (radix m w : Nat) (x : List Nat) (h2 : 2 ≤ radix)
    (hm : x.length = m) (hd : ∀ d ∈ x, d < radix)
    (hw : radix ^ m ≤ 256 ^ w) :
    bytes_to_num (num_to_bytes x radix w) m radix = x := by
  have hr : 0 < radix := by omega
  have hval : beValB radix x < radix ^ m := by
    rw [← hm]; exact beValB_lt radix x hr hd
  rw [bytes_to_num, bytes_to_num_go_toDigits radix hr m _ (num_to_bytes_lt x radix w),
    num_to_bytes_spec, Nat.mod_eq_of_lt (lt_of_lt_of_le hval hw), ← hm]
  exact toDigitsBE_beValB radix hr x hd

end Codec

section DigitOps

lemma addDigits_length (r : Nat) (a y : List Nat) :
    (addDigits r a y).1.length = a.length := by
  induction a generalizing y with
  | nil => cases y <;> rfl
  | cons x xs ih =>
    cases y with
    | nil => rfl
    | cons z zs => simp [addDigits, ih]

lemma addDigits_lt (r : Nat) (hr : 0 < r) (a y : List Nat)
    (ha : ∀ d ∈ a, d < r) : ∀ d ∈ (addDigits r a y).1, d < r := by
  induction a generalizing y with
  | nil => cases y <;> exact ha
  | cons x xs ih =>
    cases y with
    | nil => exact ha
    | cons z zs =>
      intro d hd
      simp only [addDigits, List.mem_cons] at hd
      rcases hd with hd | hd
      · subst hd; exact Nat.mod_lt _ hr
      · exact ih zs (fun e he => ha e (List.mem_cons_of_mem x he)) d hd

lemma addDigits_carry_le (r : Nat) (hr : 0 < r) (a y : List Nat)
    (ha : ∀ d ∈ a, d < r) (hy : ∀ d ∈ y, d < r) :
    (addDigits r a y).2 ≤ 1 := by
  induction a generalizing y with
  | nil => cases y <;> simp [addDigits]
  | cons x xs ih =>
    cases y with
    | nil => simp [addDigits]
    | cons z zs =>
      have hx : x < r := ha x (List.mem_cons_self x xs)
      have hz : z < r := hy z (List.mem_cons_self z zs)
      have hc : (addDigits r xs zs).2 ≤ 1 :=
        ih zs (fun e he => ha e (List.mem_cons_of_mem x he))
          (fun e he => hy e (List.mem_cons_of_mem z he))
      simp only [addDigits]
      have hd2 : (x + z + (addDigits r xs zs).2) / r < 2 :=
        Nat.div_lt_of_lt_mul (by omega)
      omega

lemma subDigits_addDigits (r : Nat) (hr : 0 < r) (a y : List Nat)
    (ha : ∀ d ∈ a, d < r) (hy : ∀ d ∈ y, d < r) :
    subDigits r (addDigits r a y).1 y = (a, (addDigits r a y).2) := by
  induction a generalizing y with
  | nil => cases y <;> rfl
  | cons x xs ih =>
    cases y with
    | nil => rfl
    | cons z zs =>
      have hx : x < r := ha x (List.mem_cons_self x xs)
      have hz : z < r := hy z (List.mem_cons_self z zs)
      have hxs : ∀ d ∈ xs, d < r := fun e he => ha e (List.mem_cons_of_mem x he)
      have hzs : ∀ d ∈ zs, d < r := fun e he => hy e (List.mem_cons_of_mem z he)
      have hc : (addDigits r xs zs).2 ≤ 1 := addDigits_carry_le r hr xs zs hxs hzs
      have hrec := ih zs hxs hzs
      have hc2 := hc
      rcases hA : addDigits r xs zs with ⟨A1, c⟩
      rw [hA] at hrec hc2
      simp only [addDigits, subDigits, hA, hrec]
      by_cases hlt : x + z + c < r
      · have hmod : (x + z + c) % r = x + z + c := Nat.mod_eq_of_lt hlt
        have hdiv : (x + z + c) / r = 0 := Nat.div_eq_of_lt hlt
        rw [hmod, hdiv, if_neg (by omega : ¬ (x + z + c < z + c))]
        have hx2 : x + z + c - z - c = x := by omega
        rw [hx2]
      · have hge : r ≤ x + z + c := by omega
        have hlt2 : x + z + c < 2 * r := by omega
        have hmod : (x + z + c) % r = x + z + c - r := mod_of_lt_two_mul hge hlt2
        have hdiv : (x + z + c) / r = 1 := div_of_lt_two_mul hr hge hlt2
        rw [hmod, hdiv, if_pos (by omega : x + z + c - r < z + c)]
        have hx2 : x + z + c - r + r - z - c = x := by omega
        rw [hx2]

lemma addLE_length (r c : Nat) (a y : List Nat) :
    (addLE r c a y).length = a.length := by
  induction a generalizing c y with
  | nil => cases y <;> rfl
  | cons x xs ih =>
    cases y with
    | nil => rfl
    | cons z zs => simp [addLE, ih]

lemma addLE_lt (r : Nat) (hr : 0 < r) (c : Nat) (a y : List Nat)
    (ha : ∀ d ∈ a, d < r) : ∀ d ∈ addLE r c a y, d < r := by
  induction a generalizing c y with
  | nil => cases y <;> exact ha
  | cons x xs ih =>
    cases y with
    | nil => exact ha
    | cons z zs =>
      intro d hd
      simp only [addLE, List.mem_cons] at hd
      rcases hd with hd | hd
      · subst hd; exact Nat.mod_lt _ hr
      · exact ih _ zs (fun e he => ha e (List.mem_cons_of_mem x he)) d hd

lemma subLE_addLE (r : Nat) (hr : 0 < r) (c : Nat) (hc : c ≤ 1) (a y : List Nat)
    (ha : ∀ d ∈ a, d < r) (hy : ∀ d ∈ y, d < r) :
    subLE r c (addLE r c a y) y = a := by
  induction a generalizing c y with
  | nil => cases y <;> rfl
  | cons x xs ih =>
    cases y with
    | nil => rfl
    | cons z zs =>
      have hx : x < r := ha x (List.mem_cons_self x xs)
      have hz : z < r := hy z (List.mem_cons_self z zs)
      have hxs : ∀ d ∈ xs, d < r := fun e he => ha e (List.mem_cons_of_mem x he)
      have hzs : ∀ d ∈ zs, d < r := fun e he => hy e (List.mem_cons_of_mem z he)
      simp only [addLE, subLE]
      by_cases hlt : x + z + c < r
      · have hmod : (x + z + c) % r = x + z + c := Nat.mod_eq_of_lt hlt
        have hdiv : (x + z + c) / r = 0 := Nat.div_eq_of_lt hlt
        rw [hmod, hdiv, if_neg (by omega : ¬ (x + z + c < z + c))]
        have hx2 : x + z + c - z - c = x := by omega
        rw [hx2, ih 0 (by omega) zs hxs hzs]
      · have hge : r ≤ x + z + c := by omega
        have hlt2 : x + z + c < 2 * r := by omega
        have hmod : (x + z + c) % r = x + z + c - r := mod_of_lt_two_mul hge hlt2
        have hdiv : (x + z + c) / r = 1 := div_of_lt_two_mul hr hge hlt2
        rw [hmod, hdiv, if_pos (by omega : x + z + c - r < z + c)]
        have hx2 : x + z + c - r + r - z - c = x := by omega
        rw [hx2, ih 1 (by omega) zs hxs hzs]

end DigitOps

section Feistel

lemma frDec_frEnc (upd dsub : List Nat → List Nat → List Nat)
    (yf : Nat → List Nat → List Nat) (r : Nat)
    (hinv : ∀ a y, (∀ d ∈ a, d < r) → (∀ d ∈ y, d < r) → dsub (upd a y) y = a)
    (hy : ∀ i B, ∀ d ∈ yf i B, d < r)
    (i : Nat) (st : List Nat × List Nat) (h1 : ∀ d ∈ st.1, d < r) :
    frDec dsub yf (frEnc upd yf st i) i = st := by
  simp only [frEnc, frDec]
  rw [hinv st.1 (yf i st.2) h1 (hy i st.2)]

lemma frEnc_fold_inv (upd : List Nat → List Nat → List Nat)
    (yf : Nat → List Nat → List Nat) (r : Nat)
    (hupd : ∀ a y, (∀ d ∈ a, d < r) → ∀ d ∈ upd a y, d < r)
    (l : List Nat) (st : List Nat × List Nat)
    (h1 : ∀ d ∈ st.1, d < r) (h2 : ∀ d ∈ st.2, d < r) :
    (∀ d ∈ (l.foldl (frEnc upd yf) st).1, d < r) ∧
      (∀ d ∈ (l.foldl (frEnc upd yf) st).2, d < r) := by
  induction l generalizing st with
  | nil => exact ⟨h1, h2⟩
  | cons i t ih =>
    simp only [List.foldl_cons]
    exact ih (frEnc upd yf st i) h2 (hupd st.1 (yf i st.2) h1)

lemma frEnc_fold_lengths (upd : List Nat → List Nat → List Nat)
    (yf : Nat → List Nat → List Nat)
    (hlen : ∀ a y, (upd a y).length = a.length)
    (l : List Nat) (st : List Nat × List Nat) :
    ((l.foldl (frEnc upd yf) st).1.length, (l.foldl (frEnc upd yf) st).2.length) =
      (if l.length % 2 = 0 then (st.1.length, st.2.length)
       else (st.2.length, st.1.length)) := by
  induction l generalizing st with
  | nil => simp
  | cons i t ih =>
    simp only [List.foldl_cons, List.length_cons]
    rw [ih (frEnc upd yf st i)]
    have hstep : ((frEnc upd yf st i).1.length, (frEnc upd yf st i).2.length) =
        (st.2.length, st.1.length) := by
      simp [frEnc, hlen]
    rcases Nat.even_or_odd t.length with he | ho
    · have h0 : t.length % 2 = 0 := Nat.even_iff.mp he
      have h1 : (t.length + 1) % 2 = 1 := by omega
      simp only [h0, h1, if_pos rfl]
      simp only [Prod.mk.injEq] at hstep
      simp [hstep.1, hstep.2]
    · have h0 : t.length % 2 = 1 := Nat.odd_iff.mp ho
      have h1 : (t.length + 1) % 2 = 0 := by omega
      simp only [h0, h1]
      simp only [Prod.mk.injEq] at hstep
      simp [hstep.1, hstep.2]

lemma feistel_fold_inv (upd dsub : List Nat → List Nat → List Nat)
    (yf : Nat → List Nat → List Nat) (r : Nat)
    (hinv : ∀ a y, (∀ d ∈ a, d < r) → (∀ d ∈ y, d < r) → dsub (upd a y) y = a)
    (hupd : ∀ a y, (∀ d ∈ a, d < r) → ∀ d ∈ upd a y, d < r)
    (hy : ∀ i B, ∀ d ∈ yf i B, d < r)
    (l : List Nat) (st : List Nat × List Nat)
    (h1 : ∀ d ∈ st.1, d < r) (h2 : ∀ d ∈ st.2, d < r) :
    l.reverse.foldl (frDec dsub yf) (l.foldl (frEnc upd yf) st) = st := by
  induction l using List.reverseRecOn generalizing st with
  | nil => rfl
  | append_singleton t i ih =>
    rw [List.foldl_append, List.reverse_append, List.reverse_singleton,
      List.singleton_append, List.foldl_cons]
    simp only [List.foldl_cons, List.foldl_nil]
    have hfold := frEnc_fold_inv upd yf r hupd t st h1 h2
    rw [frDec_frEnc upd dsub yf r hinv hy i _ hfold.1]
    exact ih st h1 h2

end Feistel

section EngineRoundtrip

lemma dec_of_enc (upd dsub : List Nat → List Nat → List Nat)
    (yf : Nat → List Nat → List Nat) (radix : Nat)
    (hinv : ∀ a y, (∀ d ∈ a, d < radix) → (∀ d ∈ y, d < radix) → dsub (upd a y) y = a)
    (hupd : ∀ a y, (∀ d ∈ a, d < radix) → ∀ d ∈ upd a y, d < radix)
    (hy : ∀ i B, ∀ d ∈ yf i B, d < radix)
    (hlenupd : ∀ a y, (upd a y).length = a.length)
    (x : List Nat) (u n : Nat) (hu : u ≤ x.length) (hn : n % 2 = 0)
    (hd : ∀ d ∈ x, d < radix) :
    (((List.range n).foldl (frEnc upd yf) (x.take u, x.drop u)).1 ++
        ((List.range n).foldl (frEnc upd yf) (x.take u, x.drop u)).2).length = x.length ∧
    (∀ d ∈ ((List.range n).foldl (frEnc upd yf) (x.take u, x.drop u)).1 ++
        ((List.range n).foldl (frEnc upd yf) (x.take u, x.drop u)).2, d < radix) ∧
    ((List.range n).reverse).foldl (frDec dsub yf)
      ((((List.range n).foldl (frEnc upd yf) (x.take u, x.drop u)).1 ++
          ((List.range n).foldl (frEnc upd yf) (x.take u, x.drop u)).2).take u,
       (((List.range n).foldl (frEnc upd yf) (x.take u, x.drop u)).1 ++
          ((List.range n).foldl (frEnc upd yf) (x.take u, x.drop u)).2).drop u) =
      (x.take u, x.drop u) := by
  set st := (List.range n).foldl (frEnc upd yf) (x.take u, x.drop u) with hst
  have hd1 : ∀ d ∈ x.take u, d < radix := fun d hdm => hd d (List.take_subset u x hdm)
  have hd2 : ∀ d ∈ x.drop u, d < radix := fun d hdm => hd d (List.drop_subset u x hdm)
  have hlens := frEnc_fold_lengths upd yf hlenupd (List.range n) (x.take u, x.drop u)
  rw [List.length_range, hn, if_pos rfl] at hlens
  simp only [Prod.mk.injEq, List.length_take, List.length_drop] at hlens
  have h1 : st.1.length = u := by rw [hlens.1]; omega
  have h2 : st.2.length = x.length - u := hlens.2
  have hbound := frEnc_fold_inv upd yf radix hupd (List.range n)
    (x.take u, x.drop u) hd1 hd2
  refine ⟨?_, ?_, ?_⟩
  · rw [List.length_append, h1, h2]; omega
  · intro d hdm
    rcases List.mem_append.mp hdm with hdm | hdm
    · exact hbound.1 d hdm
    · exact hbound.2 d hdm
  · have htk : (st.1 ++ st.2).take u = st.1 := by
      rw [← h1]; exact List.take_left _ _
    have hdr : (st.1 ++ st.2).drop u = st.2 := by
      rw [← h1]; exact List.drop_left _ _
    rw [htk, hdr, Prod.mk.eta, hst]
    exact feistel_fold_inv upd dsub yf radix hinv hupd hy (List.range n)
      (x.take u, x.drop u) hd1 hd2

lemma ff1_inv_step (radix : Nat) (hr : 0 < radix) :
    ∀ a y : List Nat, (∀ d ∈ a, d < radix) → (∀ d ∈ y, d < radix) →
      ff1sub radix (ff1add radix a y) y = a := by
  intro a y ha hy
  unfold ff1sub ff1add
  rw [subDigits_addDigits radix hr a y ha hy]

lemma ff1_y_lt (E : List Nat → List Nat) (radix : Nat) (hr : 0 < radix)
    (tweak P : List Nat) (b d u v : Nat) :
    ∀ i B, ∀ e ∈ ff1_y E radix tweak P b d u v i B, e < radix := by
  intro i B e he
  exact bytes_to_num_lt _ _ _ hr e he

lemma ff3_y_lt (E : List Nat → List Nat) (radix : Nat) (hr : 0 < radix)
    (Tl Tr : List Nat) (u v : Nat) :
    ∀ i B, ∀ e ∈ ff3_y E radix Tl Tr u v i B, e < radix := by
  intro i B e he
  exact bytes_to_num_rev_lt _ _ _ hr e he

lemma ff1_roundtrip_aux (E : List Nat → List Nat) (radix : Nat) (h2 : 2 ≤ radix)
    (tweak x c : List Nat) (hd : ∀ d ∈ x, d < radix)
    (henc : ff1_encrypt E radix tweak x = some c) :
    ff1_decrypt E radix tweak c = some x := by
  have hr : 0 < radix := by omega
  have hlen : ¬ (x.length < 2 ∨ 256 < x.length) := by
    intro h
    rw [ff1_encrypt, if_pos h] at henc
    exact Option.noConfusion henc
  rw [ff1_encrypt, if_neg hlen] at henc
  simp only [Option.some.injEq] at henc
  have hspec := dec_of_enc (ff1add radix) (ff1sub radix)
    (ff1_y E radix tweak
      (ff1_P radix (x.length / 2) x.length tweak.length)
      (bLen radix (x.length - x.length / 2))
      (4 * ceildiv (bLen radix (x.length - x.length / 2)) 4 + 4)
      (x.length / 2) (x.length - x.length / 2))
    radix (ff1_inv_step radix hr) (fun a y ha => addDigits_lt radix hr a y ha)
    (ff1_y_lt E radix hr _ _ _ _ _ _) (fun a y => addDigits_length radix a y)
    x (x.length / 2) 10 (Nat.div_le_self _ _) rfl hd
  rw [henc] at hspec
  obtain ⟨hclen, _hcd, hdec⟩ := hspec
  simp only [ff1_decrypt]
  rw [if_neg (by rw [hclen]; exact hlen), hclen]
  rw [hdec, List.take_append_drop]

lemma ff3_roundtrip_aux (E : List Nat → List Nat) (radix : Nat) (h2 : 2 ≤ radix)
    (tweak x c : List Nat) (hd : ∀ d ∈ x, d < radix)
    (henc : ff3_encrypt E radix tweak x = some c) :
    ff3_decrypt E radix tweak c = some x := by
  have hr : 0 < radix := by omega
  have hlen : ¬ (x.length < 2 ∨ 256 < x.length) := by
    intro h
    rw [ff3_encrypt, if_pos h] at henc
    exact Option.noConfusion henc
  have htw : ¬ (tweak.length ≠ 8 ∧ tweak.length ≠ 7 ∧ tweak.length ≠ 0) := by
    intro h
    rw [ff3_encrypt, if_neg hlen, if_pos h] at henc
    exact Option.noConfusion henc
  rw [ff3_encrypt, if_neg hlen, if_neg htw] at henc
  simp only [Option.some.injEq] at henc
  have hu : (x.length + 1) / 2 ≤ x.length := by omega
  have hspec := dec_of_enc (addLE radix 0) (subLE radix 0)
    (ff3_y E radix (ff3_tweakHalves tweak).1 (ff3_tweakHalves tweak).2
      ((x.length + 1) / 2) (x.length - (x.length + 1) / 2))
    radix
    (fun a y ha hy => subLE_addLE radix hr 0 (by omega) a y ha hy)
    (fun a y ha => addLE_lt radix hr 0 a y ha)
    (ff3_y_lt E radix hr _ _ _ _) (fun a y => addLE_length radix 0 a y)
    x ((x.length + 1) / 2) 8 hu rfl hd
  rw [henc] at hspec
  obtain ⟨hclen, _hcd, hdec⟩ := hspec
  simp only [ff3_decrypt]
  rw [if_neg (by rw [hclen]; exact hlen), if_neg htw, hclen]
  rw [hdec, List.take_append_drop]

lemma ff3_1_roundtrip_aux (E : List Nat → List Nat) (radix : Nat) (h2 : 2 ≤ radix)
    (tweak x c : List Nat) (hd : ∀ d ∈ x, d < radix)
    (henc : ff3_1_encrypt E radix tweak x = some c) :
    ff3_1_decrypt E radix tweak c = some x := by
  have hr : 0 < radix := by omega
  have hlen : ¬ (x.length < 2 ∨ 256 < x.length) := by
    intro h
    rw [ff3_1_encrypt, if_pos h] at henc
    exact Option.noConfusion henc
  have htw : ¬ (tweak.length ≠ 7 ∧ tweak.length ≠ 8 ∧ tweak.length ≠ 0) := by
    intro h
    rw [ff3_1_encrypt, if_neg hlen, if_pos h] at henc
    exact Option.noConfusion henc
  rw [ff3_1_encrypt, if_neg hlen, if_neg htw] at henc
  simp only [Option.some.injEq] at henc
  have hu : (x.length + 1) / 2 ≤ x.length := by omega
  have hspec := dec_of_enc (addLE radix 0) (subLE radix 0)
    (ff3_y E radix (ff3_1_tweakHalves tweak).1 (ff3_1_tweakHalves tweak).2
      ((x.length + 1) / 2) (x.length - (x.length + 1) / 2))
    radix
    (fun a y ha hy => subLE_addLE radix hr 0 (by omega) a y ha hy)
    (fun a y ha => addLE_lt radix hr 0 a y ha)
    (ff3_y_lt E radix hr _ _ _ _) (fun a y => addLE_length radix 0 a y)
    x ((x.length + 1) / 2) 8 hu rfl hd
  rw [henc] at hspec
  obtain ⟨hclen, _hcd, hdec⟩ := hspec
  simp only [ff3_1_decrypt]
  rw [if_neg (by rw [hclen]; exact hlen), if_neg htw, hclen]
  rw [hdec, List.take_append_drop]

end EngineRoundtrip

section EngineRange

lemma ff1_range_aux (E : List Nat → List Nat) (radix : Nat) (h2 : 2 ≤ radix)
    (tweak x c : List Nat) (hd : ∀ d ∈ x, d < radix)
    (henc : ff1_encrypt E radix tweak x = some c) : ∀ d ∈ c, d < radix := by
  have hr : 0 < radix := by omega
  have hlen : ¬ (x.length < 2 ∨ 256 < x.length) := by
    intro h
    rw [ff1_encrypt, if_pos h] at henc
    exact Option.noConfusion henc
  rw [ff1_encrypt, if_neg hlen] at henc
  simp only [Option.some.injEq] at henc
  have hspec := dec_of_enc (ff1add radix) (ff1sub radix)
    (ff1_y E radix tweak
      (ff1_P radix (x.length / 2) x.length tweak.length)
      (bLen radix (x.length - x.length / 2))
      (4 * ceildiv (bLen radix (x.length - x.length / 2)) 4 + 4)
      (x.length / 2) (x.length - x.length / 2))
    radix (ff1_inv_step radix hr) (fun a y ha => addDigits_lt radix hr a y ha)
    (ff1_y_lt E radix hr _ _ _ _ _ _) (fun a y => addDigits_length radix a y)
    x (x.length / 2) 10 (Nat.div_le_self _ _) rfl hd
  rw [henc] at hspec
  exact hspec.2.1

lemma ff3_range_aux (E : List Nat → List Nat) (radix : Nat) (h2 : 2 ≤ radix)
    (tweak x c : List Nat) (hd : ∀ d ∈ x, d < radix)
    (henc : ff3_encrypt E radix tweak x = some c) : ∀ d ∈ c, d < radix := by
  have hr : 0 < radix := by omega
  have hlen : ¬ (x.length < 2 ∨ 256 < x.length) := by
    intro h
    rw [ff3_encrypt, if_pos h] at henc
    exact Option.noConfusion henc
  have htw : ¬ (tweak.length ≠ 8 ∧ tweak.length ≠ 7 ∧ tweak.length ≠ 0) := by
    intro h
    rw [ff3_encrypt, if_neg hlen, if_pos h] at henc
    exact Option.noConfusion henc
  rw [ff3_encrypt, if_neg hlen, if_neg htw] at henc
  simp only [Option.some.injEq] at henc
  have hu : (x.length + 1) / 2 ≤ x.length := by omega
  have hspec := dec_of_enc (addLE radix 0) (subLE radix 0)
    (ff3_y E radix (ff3_tweakHalves tweak).1 (ff3_tweakHalves tweak).2
      ((x.length + 1) / 2) (x.length - (x.length + 1) / 2))
    radix
    (fun a y ha hy => subLE_addLE radix hr 0 (by omega) a y ha hy)
    (fun a y ha => addLE_lt radix hr 0 a y ha)
    (ff3_y_lt E radix hr _ _ _ _) (fun a y => addLE_length radix 0 a y)
    x ((x.length + 1) / 2) 8 hu rfl hd
  rw [henc] at hspec
  exact hspec.2.1

lemma ff3_1_range_aux (E : List Nat → List Nat) (radix : Nat) (h2 : 2 ≤ radix)
    (tweak x c : List Nat) (hd : ∀ d ∈ x, d < radix)
    (henc : ff3_1_encrypt E radix tweak x = some c) : ∀ d ∈ c, d < radix := by
  have hr : 0 < radix := by omega
  have hlen : ¬ (x.length < 2 ∨ 256 < x.length) := by
    intro h
    rw [ff3_1_encrypt, if_pos h] at henc
    exact Option.noConfusion henc
  have htw : ¬ (tweak.length ≠ 7 ∧ tweak.length ≠ 8 ∧ tweak.length ≠ 0) := by
    intro h
    rw [ff3_1_encrypt, if_neg hlen, if_pos h] at henc
    exact Option.noConfusion henc
  rw [ff3_1_encrypt, if_neg hlen, if_neg htw] at henc
  simp only [Option.some.injEq] at henc
  have hu : (x.length + 1) / 2 ≤ x.length := by omega
  have hspec := dec_of_enc (addLE radix 0) (subLE radix 0)
    (ff3_y E radix (ff3_1_tweakHalves tweak).1 (ff3_1_tweakHalves tweak).2
      ((x.length + 1) / 2) (x.length - (x.length + 1) / 2))
    radix
    (fun a y ha hy => subLE_addLE radix hr 0 (by omega) a y ha hy)
    (fun a y ha => addLE_lt radix hr 0 a y ha)
    (ff3_y_lt E radix hr _ _ _ _) (fun a y => addLE_length radix 0 a y)
    x ((x.length + 1) / 2) 8 hu rfl hd
  rw [henc] at hspec
  exact hspec.2.1

end EngineRange

section TweakCongr

lemma ff3_1_tweakHalves_take7 (t : List Nat) (h : t.length = 8) :
    ff3_1_tweakHalves (t.take 7) = ff3_1_tweakHalves t := by
  have h7 : (t.take 7).length = 7 := by
    rw [List.length_take]; omega
  have hg : ∀ i, i < 7 → (t.take 7).getD i 0 = t.getD i 0 := by
    intro i hi
    simp [List.getD, List.getElem?_take_of_lt hi]
  rw [ff3_1_tweakHalves, ff3_1_tweakHalves, if_pos (by omega), if_pos (by omega),
    hg 0 (by omega), hg 1 (by omega), hg 2 (by omega), hg 3 (by omega),
    hg 4 (by omega), hg 5 (by omega), hg 6 (by omega)]

lemma ff3_1_encrypt_congr_tweak (E : List Nat → List Nat) (radix : Nat)
    (x t1 t2 : List Nat)
    (ht1 : t1.length = 0 ∨ t1.length = 7 ∨ t1.length = 8)
    (ht2 : t2.length = 0 ∨ t2.length = 7 ∨ t2.length = 8)
    (hh : ff3_1_tweakHalves t1 = ff3_1_tweakHalves t2) :
    ff3_1_encrypt E radix t1 x = ff3_1_encrypt E radix t2 x := by
  by_cases hx : x.length < 2 ∨ 256 < x.length
  · rw [ff3_1_encrypt, ff3_1_encrypt, if_pos hx, if_pos hx]
  · simp only [ff3_1_encrypt, if_neg hx,
      if_neg (show ¬ (t1.length ≠ 7 ∧ t1.length ≠ 8 ∧ t1.length ≠ 0) by omega),
      if_neg (show ¬ (t2.length ≠ 7 ∧ t2.length ≠ 8 ∧ t2.length ≠ 0) by omega), hh]

lemma ff3_1_decrypt_congr_tweak (E : List Nat → List Nat) (radix : Nat)
    (x t1 t2 : List Nat)
    (ht1 : t1.length = 0 ∨ t1.length = 7 ∨ t1.length = 8)
    (ht2 : t2.length = 0 ∨ t2.length = 7 ∨ t2.length = 8)
    (hh : ff3_1_tweakHalves t1 = ff3_1_tweakHalves t2) :
    ff3_1_decrypt E radix t1 x = ff3_1_decrypt E radix t2 x := by
  by_cases hx : x.length < 2 ∨ 256 < x.length
  · rw [ff3_1_decrypt, ff3_1_decrypt, if_pos hx, if_pos hx]
  · simp only [ff3_1_decrypt, if_neg hx,
      if_neg (show ¬ (t1.length ≠ 7 ∧ t1.length ≠ 8 ∧ t1.length ≠ 0) by omega),
      if_neg (show ¬ (t2.length ≠ 7 ∧ t2.length ≠ 8 ∧ t2.length ≠ 0) by omega), hh]

end TweakCongr

/-- C1: for every mode in {FF1, FF3, FF3-1}, every block cipher `E` (covering
every supported (algo, key) pair), every radix in [2, 65536], every tweak of a
length the mode accepts, and every plaintext whose length passes the engine
checks (2 ≤ m ≤ 256) with all digits below the radix, decrypting the
ciphertext produced by encrypt under the same context and tweak returns
exactly the original plaintext. -/
theorem fpe_c1_roundtrip (E : List Nat → List Nat) (radix : Nat)
    (h2 : 2 ≤ radix) (h3 : radix ≤ 65536) (tweak x : List Nat)
    (hd : ∀ d ∈ x, d < radix) :
    (∀ c, ff1_encrypt E radix tweak x = some c →
      ff1_decrypt E radix tweak c = some x) ∧
    (∀ c, ff3_encrypt E radix tweak x = some c →
      ff3_decrypt E radix tweak c = some x) ∧
    (∀ c, ff3_1_encrypt E radix tweak x = some c →
      ff3_1_decrypt E radix tweak c = some x) :=
  ⟨fun c henc => ff1_roundtrip_aux E radix h2 tweak x c hd henc,
   fun c henc => ff3_roundtrip_aux E radix h2 tweak x c hd henc,
   fun c henc => ff3_1_roundtrip_aux E radix h2 tweak x c hd henc⟩

set_option maxRecDepth 8192 in
/-- Witness for C1 at a concrete cipher, radix 10, a 7-byte tweak (valid for
all three modes) and plaintext [3,1,4,1,5]. -/
theorem fpe_c1_roundtrip_witness :
    ff1_decrypt cipherMix 10 [1, 2, 3, 4, 5, 6, 7] [9, 6, 1, 8, 0] =
      some [3, 1, 4, 1, 5] ∧
    ff3_decrypt cipherMix 10 [1, 2, 3, 4, 5, 6, 7] [3, 3, 5, 1, 1] =
      some [3, 1, 4, 1, 5] ∧
    ff3_1_decrypt cipherMix 10 [1, 2, 3, 4, 5, 6, 7] [3, 5, 6, 3, 4] =
      some [3, 1, 4, 1, 5] := by
  obtain ⟨h1, h3, h31⟩ := fpe_c1_roundtrip cipherMix 10 (by decide) (by decide)
    [1, 2, 3, 4, 5, 6, 7] [3, 1, 4, 1, 5] (by decide)
  exact ⟨h1 [9, 6, 1, 8, 0] (by decide), h3 [3, 3, 5, 1, 1] (by decide),
    h31 [3, 5, 6, 3, 4] (by decide)⟩

/-- C7: for every valid encrypt call (any cipher `E`, radix in [2, 65536],
length accepted by the engine, tweak length accepted by the mode, all input
digits below the radix), every digit of the produced ciphertext lies below
the radix, in all three modes. -/
theorem fpe_c7_alphabet_preservation (E : List Nat → List Nat) (radix : Nat)
    (h2 : 2 ≤ radix) (h3 : radix ≤ 65536) (tweak x : List Nat)
    (hd : ∀ d ∈ x, d < radix) :
    (∀ c, ff1_encrypt E radix tweak x = some c → ∀ d ∈ c, d < radix) ∧
    (∀ c, ff3_encrypt E radix tweak x = some c → ∀ d ∈ c, d < radix) ∧
    (∀ c, ff3_1_encrypt E radix tweak x = some c → ∀ d ∈ c, d < radix) :=
  ⟨fun c henc => ff1_range_aux E radix h2 tweak x c hd henc,
   fun c henc => ff3_range_aux E radix h2 tweak x c hd henc,
   fun c henc => ff3_1_range_aux E radix h2 tweak x c hd henc⟩

set_option maxRecDepth 8192 in
/-- Witness for C7 at the same concrete inputs as the C1 witness. -/
theorem fpe_c7_alphabet_preservation_witness :
    (∀ d ∈ [9, 6, 1, 8, 0], d < 10) ∧ (∀ d ∈ [3, 3, 5, 1, 1], d < 10) ∧
    (∀ d ∈ [3, 5, 6, 3, 4], d < 10) := by
  obtain ⟨h1, h3, h31⟩ := fpe_c7_alphabet_preservation cipherMix 10 (by decide)
    (by decide) [1, 2, 3, 4, 5, 6, 7] [3, 1, 4, 1, 5] (by decide)
  exact ⟨h1 [9, 6, 1, 8, 0] (by decide), h3 [3, 3, 5, 1, 1] (by decide),
    h31 [3, 5, 6, 3, 4] (by decide)⟩

/-- C6: for every radix in [2, 65536], every digit sequence of length m with
all digits below the radix, and every byte width w with radix ^ m ≤ 2 ^ (8w),
converting to the fixed-width byte representation and back is the identity,
both in the FF1 natural ordering and in the FF3-family reversed ordering. -/
theorem fpe_c6_codec_roundtrip (radix m w : Nat) (x : List Nat)
    (h2 : 2 ≤ radix) (h3 : radix ≤ 65536) (hm : x.length = m)
    (hd : ∀ d ∈ x, d < radix) (hw : radix ^ m ≤ 2 ^ (8 * w)) :
    bytes_to_num (num_to_bytes x radix w) m radix = x ∧
    bytes_to_num_rev (num_to_bytes_rev x radix w) m radix = x := by
  have hw256 : radix ^ m ≤ 256 ^ w := by
    calc radix ^ m ≤ 2 ^ (8 * w) := hw
      _ = 256 ^ w := by rw [pow_mul]; norm_num
  constructor
  · exact codec_roundtrip_nat radix m w x h2 hm hd hw256
  · have hrev : num_to_bytes_rev x radix w = num_to_bytes x.reverse radix w := rfl
    have hd2 : ∀ d ∈ x.reverse, d < radix := by
      intro d hdm; exact hd d (List.mem_reverse.mp hdm)
    have hm2 : x.reverse.length = m := by rw [List.length_reverse, hm]
    have hnat := codec_roundtrip_nat radix m w x.reverse h2 hm2 hd2 hw256
    rw [bytes_to_num_rev, bytes_to_num_rev_go_rev, hrev]
    rw [show bytes_to_num_go radix m (num_to_bytes x.reverse radix w) =
        bytes_to_num (num_to_bytes x.reverse radix w) m radix from rfl]
    rw [hnat, List.reverse_reverse]

/-- Witness for C6 at radix 10, m = 3, w = 2 (10^3 ≤ 2^16). -/
theorem fpe_c6_codec_roundtrip_witness :
    bytes_to_num (num_to_bytes [9, 0, 5] 10 2) 3 10 = [9, 0, 5] ∧
    bytes_to_num_rev (num_to_bytes_rev [9, 0, 5] 10 2) 3 10 = [9, 0, 5] :=
  fpe_c6_codec_roundtrip 10 3 2 [9, 0, 5] (by decide) (by decide) (by decide)
    (by decide) (by decide)

/-- C4: the fixed 16-byte FF1 prefix P used by both ff1_encrypt and
ff1_decrypt is 0x01, 0x02, 0x01, the radix as a 24-bit big-endian integer,
0x0A, u mod 256, the length m as a 32-bit big-endian integer, and the tweak
length as a 32-bit big-endian integer. -/
theorem fpe_c4_p_layout (radix u m t : Nat) (hr : radix ≤ 65536)
    (hm : m < 2 ^ 32) (ht : t < 2 ^ 32) :
    (ff1_P radix u m t).length = 16 ∧
    (ff1_P radix u m t).getD 0 0 = 1 ∧
    (ff1_P radix u m t).getD 1 0 = 2 ∧
    (ff1_P radix u m t).getD 2 0 = 1 ∧
    (ff1_P radix u m t).getD 3 0 * 2 ^ 16 + (ff1_P radix u m t).getD 4 0 * 2 ^ 8 +
      (ff1_P radix u m t).getD 5 0 = radix ∧
    (ff1_P radix u m t).getD 6 0 = 10 ∧
    (ff1_P radix u m t).getD 7 0 = u % 256 ∧
    (ff1_P radix u m t).getD 8 0 * 2 ^ 24 + (ff1_P radix u m t).getD 9 0 * 2 ^ 16 +
      (ff1_P radix u m t).getD 10 0 * 2 ^ 8 + (ff1_P radix u m t).getD 11 0 = m ∧
    (ff1_P radix u m t).getD 12 0 * 2 ^ 24 + (ff1_P radix u m t).getD 13 0 * 2 ^ 16 +
      (ff1_P radix u m t).getD 14 0 * 2 ^ 8 + (ff1_P radix u m t).getD 15 0 = t := by
  refine ⟨rfl, rfl, rfl, rfl, ?_, rfl, rfl, ?_, ?_⟩ <;>
    · simp only [ff1_P, List.getD, List.get?, Option.getD_some]
      norm_num
      omega

/-- Witness for C4 at radix 1000, u = 5, m = 10, tweak length 11. -/
theorem fpe_c4_p_layout_witness :
    (ff1_P 1000 5 10 11).length = 16 ∧
    (ff1_P 1000 5 10 11).getD 0 0 = 1 ∧
    (ff1_P 1000 5 10 11).getD 1 0 = 2 ∧
    (ff1_P 1000 5 10 11).getD 2 0 = 1 ∧
    (ff1_P 1000 5 10 11).getD 3 0 * 2 ^ 16 + (ff1_P 1000 5 10 11).getD 4 0 * 2 ^ 8 +
      (ff1_P 1000 5 10 11).getD 5 0 = 1000 ∧
    (ff1_P 1000 5 10 11).getD 6 0 = 10 ∧
    (ff1_P 1000 5 10 11).getD 7 0 = 5 % 256 ∧
    (ff1_P 1000 5 10 11).getD 8 0 * 2 ^ 24 + (ff1_P 1000 5 10 11).getD 9 0 * 2 ^ 16 +
      (ff1_P 1000 5 10 11).getD 10 0 * 2 ^ 8 + (ff1_P 1000 5 10 11).getD 11 0 = 10 ∧
    (ff1_P 1000 5 10 11).getD 12 0 * 2 ^ 24 + (ff1_P 1000 5 10 11).getD 13 0 * 2 ^ 16 +
      (ff1_P 1000 5 10 11).getD 14 0 * 2 ^ 8 + (ff1_P 1000 5 10 11).getD 15 0 = 11 :=
  fpe_c4_p_layout 1000 5 10 11 (by decide) (by decide) (by decide)

/-- C2: the FF3-1 engine places the low nibble of tweak byte 3 into Tr[0]
WITHOUT the left shift by 4 that the claim (and the NIST Rev 1 text) require:
on the 7-byte tweak 00 00 00 0F 00 00 00 the code derives Tr = [0x0F,0,0,0],
whereas the claimed derivation gives first byte (0x0F & 0x0F) <<< 4 = 0xF0. -/
theorem fpe_c2_tr_nibble_bug :
    (ff3_1_tweakHalves [0, 0, 0, 0x0F, 0, 0, 0]).2 = [0x0F, 0, 0, 0] ∧
    (0x0F &&& 0x0F) <<< 4 = 0xF0 ∧ (0x0F : Nat) ≠ 0xF0 := by decide

lemma validate_tweak_ok (mode tl : Nat)
    (h : mode = 0 ∨ ((mode = 1 ∨ mode = 2) ∧ (tl = 0 ∨ tl = 7 ∨ tl = 8))) :
    fpe_validate_tweak mode tl = 0 := by
  rw [fpe_validate_tweak]
  split_ifs <;> omega

/-- C5: the FF3-1 engine accepts exactly the tweak lengths 0, 7 and 8 (both
for encrypt and decrypt), an 8-byte tweak produces the same output as its
first 7 bytes, and the zero-length tweak yields all-zero halves Tl and Tr. -/
theorem fpe_c5_tweak_contract (E : List Nat → List Nat) (radix : Nat)
    (x : List Nat) (h2 : 2 ≤ x.length) (h256 : x.length ≤ 256) :
    (∀ tweak : List Nat,
      ((ff3_1_encrypt E radix tweak x).isSome = true ↔
        tweak.length = 0 ∨ tweak.length = 7 ∨ tweak.length = 8) ∧
      ((ff3_1_decrypt E radix tweak x).isSome = true ↔
        tweak.length = 0 ∨ tweak.length = 7 ∨ tweak.length = 8)) ∧
    (∀ tweak : List Nat, tweak.length = 8 →
      ff3_1_encrypt E radix tweak x = ff3_1_encrypt E radix (tweak.take 7) x ∧
      ff3_1_decrypt E radix tweak x = ff3_1_decrypt E radix (tweak.take 7) x) ∧
    ff3_1_tweakHalves [] = ([0, 0, 0, 0], [0, 0, 0, 0]) := by
  have hx : ¬ (x.length < 2 ∨ 256 < x.length) := by omega
  refine ⟨?_, ?_, by decide⟩
  · intro tweak
    constructor
    · rw [ff3_1_encrypt, if_neg hx]
      by_cases h : tweak.length ≠ 7 ∧ tweak.length ≠ 8 ∧ tweak.length ≠ 0
      · rw [if_pos h]
        simp only [Option.isSome_none, Bool.false_eq_true, false_iff]
        omega
      · rw [if_neg h]
        exact ⟨fun _ => by omega, fun _ => rfl⟩
    · rw [ff3_1_decrypt, if_neg hx]
      by_cases h : tweak.length ≠ 7 ∧ tweak.length ≠ 8 ∧ tweak.length ≠ 0
      · rw [if_pos h]
        simp only [Option.isSome_none, Bool.false_eq_true, false_iff]
        omega
      · rw [if_neg h]
        exact ⟨fun _ => by omega, fun _ => rfl⟩
  · intro tweak htw8
    have hh := ff3_1_tweakHalves_take7 tweak htw8
    have h7 : (tweak.take 7).length = 7 := by rw [List.length_take]; omega
    exact ⟨ff3_1_encrypt_congr_tweak E radix x tweak (tweak.take 7)
        (by omega) (by omega) hh.symm,
      ff3_1_decrypt_congr_tweak E radix x tweak (tweak.take 7)
        (by omega) (by omega) hh.symm⟩

set_option maxRecDepth 8192 in
/-- Witness for C5 at a concrete cipher and input: a 7-byte tweak is
accepted, a 3-byte tweak is rejected, an 8-byte tweak is equivalent to its
7-byte prefix, and the empty tweak gives zero halves. -/
theorem fpe_c5_tweak_contract_witness :
    (ff3_1_encrypt cipherMix 10 [1, 2, 3, 4, 5, 6, 7] [1, 2]).isSome = true ∧
    ¬ ((ff3_1_encrypt cipherMix 10 [1, 2, 3] [1, 2]).isSome = true) ∧
    ff3_1_encrypt cipherMix 10 [1, 2, 3, 4, 5, 6, 7, 8] [1, 2] =
      ff3_1_encrypt cipherMix 10 ([1, 2, 3, 4, 5, 6, 7, 8].take 7) [1, 2] ∧
    ff3_1_tweakHalves [] = ([0, 0, 0, 0], [0, 0, 0, 0]) := by
  obtain ⟨hiff, h8, hzero⟩ := fpe_c5_tweak_contract cipherMix 10 [1, 2]
    (by decide) (by decide)
  refine ⟨(hiff [1, 2, 3, 4, 5, 6, 7]).1.mpr (by decide), ?_,
    (h8 [1, 2, 3, 4, 5, 6, 7, 8] (by decide)).1, hzero⟩
  intro h
  exact absurd ((hiff [1, 2, 3]).1.mp h) (by decide)

/-- C3 counterexample: an FF1 context initialized with radix 10 accepts the
input [10, 0] — whose first digit equals the radix, hence is invalid — and
FPE_encrypt dispatches to the engine and returns success with an output,
instead of failing with an invalid-digit error. -/
theorem fpe_c3_counterexample :
    FPE_CTX_init ⟨0, 0, 0, 0, 0, List.replicate 32 0⟩ 0 0 (List.replicate 16 0)
      128 10 = some ⟨0, 0, 10, 128, 16, List.replicate 32 0⟩ ∧
    ¬ ((10 : Nat) < 10) ∧
    FPE_encrypt cipherZero ⟨0, 0, 10, 128, 16, List.replicate 32 0⟩ [10, 0] [] =
      some [0, 0] := by decide

/-- C3 amended: FPE_encrypt and FPE_decrypt perform no digit validation at
all: for every initialized context (any mode with a tweak length the mode
accepts) and every input of an accepted length, the call succeeds and
produces output regardless of the digit values. -/
theorem fpe_c3_no_digit_validation (E : List Nat → List Nat) (ctx : FPE_CTX)
    (x tweak : List Nat)
    (hmode : ctx.mode = 0 ∨ ((ctx.mode = 1 ∨ ctx.mode = 2) ∧
      (tweak.length = 0 ∨ tweak.length = 7 ∨ tweak.length = 8)))
    (h1 : 2 ≤ x.length) (h2 : x.length ≤ 256) :
    (FPE_encrypt E ctx x tweak).isSome = true ∧
    (FPE_decrypt E ctx x tweak).isSome = true := by
  have hx : ¬ (x.length < 2 ∨ 256 < x.length) := by omega
  have hv : fpe_validate_tweak ctx.mode tweak.length = 0 :=
    validate_tweak_ok _ _ hmode
  constructor
  · rw [FPE_encrypt, if_neg (by rw [hv]; simp)]
    rcases hmode with hm | ⟨hm | hm, htw⟩
    · rw [if_pos hm, ff1_encrypt, if_neg hx]
      rfl
    · rw [if_neg (by omega), if_pos hm, ff3_encrypt, if_neg hx, if_neg (by omega)]
      rfl
    · rw [if_neg (by omega), if_neg (by omega), if_pos hm, ff3_1_encrypt,
        if_neg hx, if_neg (by omega)]
      rfl
  · rw [FPE_decrypt, if_neg (by rw [hv]; simp)]
    rcases hmode with hm | ⟨hm | hm, htw⟩
    · rw [if_pos hm, ff1_decrypt, if_neg hx]
      rfl
    · rw [if_neg (by omega), if_pos hm, ff3_decrypt, if_neg hx, if_neg (by omega)]
      rfl
    · rw [if_neg (by omega), if_neg (by omega), if_pos hm, ff3_1_decrypt,
        if_neg hx, if_neg (by omega)]
      rfl

/-- Witness for the amended C3: the FF1 context with radix 10 encrypts and
decrypts the invalid input [10, 0] successfully. -/
theorem fpe_c3_no_digit_validation_witness :
    (FPE_encrypt cipherZero ⟨0, 0, 10, 128, 16, List.replicate 32 0⟩
      [10, 0] []).isSome = true ∧
    (FPE_decrypt cipherZero ⟨0, 0, 10, 128, 16, List.replicate 32 0⟩
      [10, 0] []).isSome = true :=
  fpe_c3_no_digit_validation cipherZero ⟨0, 0, 10, 128, 16, List.replicate 32 0⟩
    [10, 0] [] (Or.inl rfl) (by decide) (by decide)

/-- C8 counterexample: FPE_CTX_init reports success (returns 0) for mode
value 3, which is outside the supported set {0, 1, 2}, with otherwise-valid
AES-128 parameters and radix 10. -/
theorem fpe_c8_counterexample :
    (FPE_CTX_init ⟨0, 0, 0, 0, 0, List.replicate 32 0⟩ 3 0 (List.replicate 16 0)
      128 10).isSome = true ∧
    ¬ ((3 : Nat) = 0 ∨ (3 : Nat) = 1 ∨ (3 : Nat) = 2) := by decide

/-- C8 amended: FPE_CTX_init does not validate the mode at all — for every
mode outside {FF1, FF3, FF3-1} with otherwise-valid algorithm, key length and
radix it stores the configuration and reports success; the unsupported mode
is only rejected later, when FPE_encrypt / FPE_decrypt return an error for
the resulting context. -/
theorem fpe_c8_mode_unchecked (ctx : FPE_CTX) (mode algo bits radix : Nat)
    (key : List Nat)
    (hmode : ¬ (mode = 0 ∨ mode = 1 ∨ mode = 2))
    (halgo : algo = 0 ∧ (bits = 128 ∨ bits = 192 ∨ bits = 256) ∨
      algo = 1 ∧ bits = 128)
    (hr1 : 2 ≤ radix) (hr2 : radix ≤ 65536) :
    (FPE_CTX_init ctx mode algo key bits radix).isSome = true ∧
    ∀ c2, FPE_CTX_init ctx mode algo key bits radix = some c2 →
      ∀ E xx tw, FPE_encrypt E c2 xx tw = none ∧ FPE_decrypt E c2 xx tw = none := by
  have hv : fpe_validate_radix radix = 0 := by
    rw [fpe_validate_radix, if_neg (by omega)]
  have hinit : FPE_CTX_init ctx mode algo key bits radix =
      some { mode := mode, algo := algo, radix := radix, key_bits := bits,
             key_len := bits / 8,
             key := key.take (bits / 8) ++ ctx.key.drop (bits / 8) } := by
    rw [FPE_CTX_init, if_neg (by rw [hv]; simp), if_neg (by tauto)]
  constructor
  · rw [hinit]
    rfl
  · intro c2 hc2 E xx tw
    rw [hinit] at hc2
    simp only [Option.some.injEq] at hc2
    have hvt : fpe_validate_tweak mode tw.length = -1 := by
      rw [fpe_validate_tweak]
      split_ifs <;> omega
    have hm : c2.mode = mode := by rw [← hc2]
    constructor
    · rw [FPE_encrypt, hm, if_pos (by rw [hvt]; decide)]
    · rw [FPE_decrypt, hm, if_pos (by rw [hvt]; decide)]

/-- Witness for the amended C8: mode 3 initializes successfully and the
resulting context is rejected by FPE_encrypt. -/
theorem fpe_c8_mode_unchecked_witness :
    (FPE_CTX_init ⟨0, 0, 0, 0, 0, List.replicate 32 0⟩ 3 0 (List.replicate 16 0)
      128 10).isSome = true ∧
    FPE_encrypt cipherZero ⟨3, 0, 10, 128, 16, List.replicate 32 0⟩ [1, 2] [] =
      none := by
  obtain ⟨hsome, hrej⟩ := fpe_c8_mode_unchecked ⟨0, 0, 0, 0, 0, List.replicate 32 0⟩
    3 0 128 10 (List.replicate 16 0) (by decide) (by tauto) (by decide) (by decide)
  exact ⟨hsome, (hrej ⟨3, 0, 10, 128, 16, List.replicate 32 0⟩ (by decide)
    cipherZero [1, 2] []).1⟩

/-- C9 counterexample: initialize a context with a 32-byte key of 0xAA bytes,
then re-initialize it with a 16-byte key of 0xBB bytes; byte 16 of the key
storage still holds 0xAA from the previous key — old key material survives
re-initialization. -/
theorem fpe_c9_counterexample :
    (Option.bind
      (FPE_CTX_init ⟨0, 0, 0, 0, 0, List.replicate 32 0⟩ 0 0
        (List.replicate 32 170) 256 10)
      (fun c1 => FPE_CTX_init c1 0 0 (List.replicate 16 187) 128 10)).map
        (fun c2 => c2.key.getD 16 0) = some 170 ∧
    (170 : Nat) ≠ 187 ∧ (170 : Nat) ≠ 0 := by decide

/-- C9 amended: FPE_CTX_init overwrites exactly the first bits/8 bytes of the
32-byte key storage with the new key and leaves the remaining bytes as they
were; prior key bytes beyond the new key length persist (they are neither
zeroed nor overwritten) until FPE_CTX_free. -/
theorem fpe_c9_stale_key_bytes (ctx : FPE_CTX) (mode algo bits radix : Nat)
    (key : List Nat)
    (halgo : algo = 0 ∧ (bits = 128 ∨ bits = 192 ∨ bits = 256) ∨
      algo = 1 ∧ bits = 128)
    (hr1 : 2 ≤ radix) (hr2 : radix ≤ 65536) :
    ∀ c2, FPE_CTX_init ctx mode algo key bits radix = some c2 →
      c2.key = key.take (bits / 8) ++ ctx.key.drop (bits / 8) := by
  intro c2 hc2
  have hv : fpe_validate_radix radix = 0 := by
    rw [fpe_validate_radix, if_neg (by omega)]
  rw [FPE_CTX_init, if_neg (by rw [hv]; simp), if_neg (by tauto)] at hc2
  simp only [Option.some.injEq] at hc2
  rw [← hc2]

/-- Witness for the amended C9: re-keying a context holding 0xAA bytes with a
16-byte 0xBB key leaves bytes 16..31 at 0xAA. -/
theorem fpe_c9_stale_key_bytes_witness :
    (⟨0, 0, 10, 128, 16, List.replicate 16 187 ++ List.replicate 16 170⟩ :
        FPE_CTX).key =
      (List.replicate 16 187).take 16 ++ (List.replicate 32 170).drop 16 :=
  fpe_c9_stale_key_bytes ⟨0, 0, 0, 0, 0, List.replicate 32 170⟩ 0 0 128 10
    (List.replicate 16 187) (by tauto) (by decide) (by decide)
    ⟨0, 0, 10, 128, 16, List.replicate 16 187 ++ List.replicate 16 170⟩ (by decide)

set_option maxRecDepth 8192 in
/-- C10: FF1 tweak validation accepts every length (shown for 255), but the
round buffer Q assembled by ff1_encrypt for a 255-byte tweak (radix 10,
input length 2, hence b = 1) is 272 bytes long — beyond the 256-byte stack
array Q[256] the C code writes it into. -/
theorem fpe_c10_q_overflow :
    fpe_validate_tweak 0 255 = 0 ∧
    bLen 10 1 = 1 ∧
    (ff1_Q (List.replicate 255 0) (bLen 10 1) 0
      (num_to_bytes [2] 10 (bLen 10 1))).length = 272 ∧
    256 < 272 := by decide

end FpeC
